import Mathlib

/-
Verification of the fx_minifier reduction engine
(src/functorch/functorch/_src/fx_minifier.py).

The embedding is a shallow one: the fx graph is a list of nodes carrying a
stable numeric identity, an op kind, an opaque target payload, operand
references (by identity) and an optional cached concrete value.  The
external failure predicate `module_fails` and the concrete executor behind
torch.fx.Interpreter are parameters.  torch.fx primitives that are not part
of the source file (lint, eliminate_dead_code, node copying) are modelled
from the specification, as noted on their doc comments.
-/

/-- Concrete runtime values: a tensor leaf, a non-tensor scalar leaf, or a
composite (tuple-like) value.  Mirrors what map_aggregate in
ConcreteProp.run_node traverses. -/
inductive Value where
  | tensor (d : Nat)
  | scalar (d : Nat)
  | tup (vs : List Value)

/-- Mirrors `isinstance(obj, torch.Tensor)` at top level. -/
def isTensor : Value → Bool
  | .tensor _ => true
  | _ => false

mutual

/-- Mirrors the `found_tensor` detection of ConcreteProp.run_node: does the
value contain a tensor leaf anywhere (map_aggregate recurses into
composites)? -/
def containsTensor : Value → Bool
  | .tensor _ => true
  | .scalar _ => false
  | .tup vs => containsTensorList vs

def containsTensorList : List Value → Bool
  | [] => false
  | v :: vs => containsTensor v || containsTensorList vs

end

/-- Mirrors `torch.zeros(())`: a zero-valued scalar tensor. -/
def zeroScalar : Value := Value.tensor 0

/-- Node kinds: `placeholder`, `output`, and `call` covering the
call_function/call_method/call_module ops whose payload the minifier never
inspects. -/
inductive Op where
  | placeholder
  | output
  | call
deriving DecidableEq

/-- An fx node: stable identity `id` (also playing the role of `node.name`),
op kind, opaque `target` payload, operand references by identity, and the
optional `meta` entry for the key concrete_value. -/
structure Node where
  id : Nat
  op : Op
  target : Nat
  args : List Nat
  meta : Option Value

/-- An fx graph: the ordered node list (insertion order is the topological
order). -/
abbrev Graph := List Node

/-- Mirrors the ReproState dataclass. -/
structure ReproState where
  graph : Graph
  inps : List Value

/-- Mirrors `_get_placeholders`. -/
def get_placeholders (g : Graph) : List Node :=
  g.filter (fun n => n.op == Op.placeholder)

/-- Number of placeholder (input-kind) nodes of a graph. -/
def phCount (g : Graph) : Nat := (get_placeholders g).length

/-- Users (consumers) of the node with identity `nid`, in graph order: the
nodes holding `nid` among their operand references.  This is `node.users`
of fx, whose dict insertion order is the order the consumers were created
in, i.e. graph order. -/
def userIds (g : Graph) (nid : Nat) : List Nat :=
  (g.filter (fun m => m.args.contains nid)).map (fun m => m.id)

/-- The in-place rewrite performed by `_convert_node_to_placeholder` on the
node itself: `node.op = 'placeholder'; node.args = (); node.target =
node.name`. -/
def setPh (g : Graph) (nid : Nat) : Graph :=
  g.map (fun m =>
    if m.id = nid then { m with op := Op.placeholder, args := [], target := m.id }
    else m)

/-- The `for tuple_user in list(node.users)` loop shape of
`_convert_node_to_placeholder`: apply `f` to each listed consumer in order,
threading the mutated graph and input list, failing as soon as `f` does. -/
def convertFold (f : Graph → Nat → List Value → Option (Graph × List Value)) :
    Graph → List Nat → List Value → Option (Graph × List Value)
  | g, [], inps => some (g, inps)
  | g, u :: us, inps =>
    match f g u inps with
    | none => none
    | some (g', inps') => convertFold f g' us inps'

/-- Mirrors `_convert_node_to_placeholder(node, inps)`.  The `fuel`
argument bounds the recursion depth through consumer chains (in a linted
graph consumers sit strictly later, so `g.length + 1` is always enough);
`none` models the uncaught Python exception paths (KeyError on a missing
concrete_value, unbounded recursion, unknown node). -/
def convert_node_to_placeholder : Nat → Graph → Nat → List Value → Option (Graph × List Value)
  | 0, _, _, _ => none
  | fuel + 1, g, nid, inps =>
    match g.find? (fun m => m.id == nid) with
    | none => none
    | some node =>
      if node.op = Op.output then some (g, inps)
      else
        match node.meta with
        | none => none
        | some v =>
          let g' := setPh g nid
          if isTensor v then some (g', inps ++ [v])
          else
            convertFold (fun h u i => convert_node_to_placeholder fuel h u i)
              g' (userIds g' nid) (inps ++ [zeroScalar])

/-- Distinctness of a list of identities, executable form. -/
def distinctIds : List Nat → Bool
  | [] => true
  | x :: xs => (!xs.contains x) && distinctIds xs

/-- Do all operand references of each node resolve to nodes that appear
strictly earlier in the node list?  `seen` accumulates the identities
already passed. -/
def argsResolve : List Nat → Graph → Bool
  | _, [] => true
  | seen, n :: rest => n.args.all (fun a => seen.contains a) && argsResolve (n.id :: seen) rest

/-- Modelled from the spec: fx.Graph.lint / fx.GraphModule construction is
not part of src.  Section 3 of the spec has validation check that there are
no duplicate identities, that every node's operands exist in the graph
(resolving to nodes that precede it in topological order), and that exactly
one output node exists once the graph is finalized. -/
def lint (g : Graph) : Bool :=
  distinctIds (g.map (fun n => n.id)) &&
    argsResolve [] g &&
    g.countP (fun n => n.op == Op.output) == 1

/-- Mirrors the `graph_fails` closure of `minifier`: build a module from
the graph, lint it (a lint failure raises, modelled as `.error`), then ask
the external failure predicate.  No check involving `inps` is performed
here. -/
def graph_fails (module_fails : Graph → List Value → Bool) (g : Graph) (inps : List Value) :
    Except String Bool :=
  if lint g then .ok (module_fails g inps) else .error "lint failed"

/-- Modelled from the spec: fx.Graph.eliminate_dead_code is not part of
src.  Section 4.3 has it remove nodes with zero consumers that are not the
output, returning whether anything was removed; input-kind nodes are
excluded since 4.3 assigns dropping unused input nodes to
remove_unused_inputs (and section 3's input-list correspondence would
otherwise break).  Nodes are visited in reverse order, so removals cascade
and a second immediate run removes nothing (section 8, idempotence of
cleanup). -/
def fxEliminateDeadCode : Graph → Graph × Bool
  | [] => ([], false)
  | n :: rest =>
    let (rest', changed) := fxEliminateDeadCode rest
    if n.op != Op.output && n.op != Op.placeholder
        && !(rest'.any (fun m => m.args.contains n.id)) then
      (rest', true)
    else
      (n :: rest', changed)

/-- A fresh identity, strictly larger than every identity in the graph,
for the output node that `new_graph.output((new_node,))` creates in
remove_suffix. -/
def freshId (g : Graph) : Nat :=
  (g.map (fun n => n.id)).foldr (fun a b => max a b) 0 + 1

/-- The sentinel output node appended by `new_graph.output((new_node,))`. -/
def outSentinel (g : Graph) (nid : Nat) : Node :=
  { id := freshId g, op := Op.output, target := 0, args := [nid], meta := none }

/-- The candidate graph remove_suffix tests at cut point `idx`: the copied
prefix of the first `idx + 1` nodes (node_copy with an identity-preserving
environment) followed by a fresh output node returning the node at `idx`.
If `idx` is out of range the graph is returned unchanged (never reached by
the scan). -/
def truncCandAt (g : Graph) (idx : Nat) : Graph :=
  match g[idx]? with
  | some node => g.take (idx + 1) ++ [outSentinel g node.id]
  | none => g

/-- The node-walking loop inside one `while gap >= 1` round of
remove_suffix.  `rest` is the not-yet-visited suffix of the node list and
`idx` the index of its head (the scan starts at `rest = g`, `idx = 0`; the
incrementally copied `new_graph` is the prefix `g.take (idx + 1)` of
`truncCandAt`).  Returns either the accepted ReproState or the updated
`tested` set for the next round. -/
def removeSuffixScan (module_fails : Graph → List Value → Bool) (g : Graph) (inps : List Value)
    (gap : Nat) :
    List Node → Nat → List Nat → Except String (Sum ReproState (List Nat))
  | [], _, tested => .ok (.inr tested)
  | node :: rest, idx, tested =>
    if node.op != Op.placeholder && node.op != Op.output
        && idx % gap == 0 && !tested.contains idx then
      match graph_fails module_fails (truncCandAt g idx) inps with
      | .error e => .error e
      | .ok r =>
        if r && decide ((truncCandAt g idx).length < g.length) then
          .ok (.inl ⟨truncCandAt g idx, inps⟩)
        else
          removeSuffixScan module_fails g inps gap rest (idx + 1) (idx :: tested)
    else
      removeSuffixScan module_fails g inps gap rest (idx + 1) tested

/-- The `while gap >= 1` loop of remove_suffix, halving `gap` each round
and keeping the `tested` set across rounds.  `fuel` makes the recursion
structural; since the gap at least halves every round, `gap + 1` rounds
always suffice, and the fuel-exhaustion branch (unreachable from
`remove_suffix`) is a distinguishable error. -/
def removeSuffixGaps (module_fails : Graph → List Value → Bool) (g : Graph) (inps : List Value) :
    Nat → Nat → List Nat → Except String (Option ReproState)
  | 0, _, _ => .error "remove_suffix ran out of fuel"
  | _ + 1, 0, _ => .ok none
  | fuel + 1, gap + 1, tested =>
    match removeSuffixScan module_fails g inps (gap + 1) g 0 tested with
    | .error e => .error e
    | .ok (.inl s) => .ok (some s)
    | .ok (.inr tested') => removeSuffixGaps module_fails g inps fuel ((gap + 1) / 2) tested'

/-- Structural floor of the base-two logarithm: `log2fuel fuel n` equals
`floor (log2 n)` whenever `fuel >= n >= 1`.  Mirrors
`math.floor(math.log2(n))`. -/
def log2fuel : Nat → Nat → Nat
  | 0, _ => 0
  | fuel + 1, n => if n < 2 then 0 else log2fuel fuel (n / 2) + 1

/-- Mirrors `math.floor(math.log2(n))` for `n >= 1`. -/
def floorLog2 (n : Nat) : Nat := log2fuel n n

/-- The initial stride of remove_suffix:
`gap = 2 ** (math.floor(math.log2(len(cur_graph.nodes))) - 1); gap = max(gap, 1)`. -/
def removeSuffixInitialGap (n : Nat) : Nat :=
  max (2 ^ (floorLog2 n - 1)) 1

/-- Mirrors the `remove_suffix` strategy body (before wrapping by
`_register_strategy`). -/
def remove_suffix (module_fails : Graph → List Value → Bool) (g : Graph) (inps : List Value) :
    Except String (Option ReproState) :=
  removeSuffixGaps module_fails g inps (removeSuffixInitialGap g.length + 1)
    (removeSuffixInitialGap g.length) []

/-- Mirrors the `remove_unused_inputs` strategy body: assert the
input-list/placeholder correspondence (the only place it is checked), drop
zero-consumer placeholders together with their input entries, and accept
only a strictly shorter input list that still fails. -/
def remove_unused_inputs (module_fails : Graph → List Value → Bool) (g : Graph)
    (inps : List Value) : Except String (Option ReproState) :=
  let ph_nodes := get_placeholders g
  if ph_nodes.length != inps.length then .error "assert failed: placeholder count"
  else
    let dead := (ph_nodes.zip inps).filterMap
      (fun p => if (userIds g p.1.id).isEmpty then some p.1.id else none)
    let new_graph := g.filter (fun n => !(n.op == Op.placeholder && dead.contains n.id))
    let new_inps := (ph_nodes.zip inps).filterMap
      (fun p => if (userIds g p.1.id).isEmpty then none else some p.2)
    if new_inps.length < inps.length then
      match graph_fails module_fails new_graph new_inps with
      | .error e => .error e
      | .ok r => if r then .ok (some ⟨new_graph, new_inps⟩) else .ok none
    else .ok none

/-- Mirrors the `eliminate_dead_code` strategy body. -/
def eliminate_dead_code (module_fails : Graph → List Value → Bool) (g : Graph)
    (inps : List Value) : Except String (Option ReproState) :=
  let (g', changed) := fxEliminateDeadCode g
  if changed then
    match graph_fails module_fails g' inps with
    | .error e => .error e
    | .ok r => if r then .ok (some ⟨g', inps⟩) else .ok none
  else .ok none

/-- Mirrors `_consolidate_placeholders`: rebuild the graph with all
placeholder nodes first (in original relative order), then all other nodes
(in original relative order). -/
def consolidate_placeholders (g : Graph) : Graph :=
  g.filter (fun n => n.op == Op.placeholder) ++ g.filter (fun n => !(n.op == Op.placeholder))

/-- The inner `for idx in range(start_range, end_range)` loop of
delta_debugging: convert every non-placeholder / non-output node of the
window to a placeholder, threading the graph, the input list and the
`is_removing` flag; `none` models the uncaught conversion exceptions. -/
def deltaWindow (g0len : Nat) : List Nat → Graph × List Value × Bool →
    Option (Graph × List Value × Bool)
  | [], st => some st
  | idx :: rest, (g, inps, isRem) =>
    match g[idx]? with
    | none => none
    | some node =>
      if node.op != Op.placeholder && node.op != Op.output then
        match convert_node_to_placeholder (g0len + 1) g node.id inps with
        | none => none
        | some (g', inps') => deltaWindow g0len rest (g', inps', true)
      else deltaWindow g0len rest (g, inps, isRem)

/-- The `for start_range in range(0, num_nodes, gap)` loop of
delta_debugging at a fixed window size. -/
def deltaStarts (module_fails : Graph → List Value → Bool) (g : Graph) (inps : List Value)
    (numNodes gap : Nat) : List Nat → Except String (Option ReproState)
  | [] => .ok none
  | start :: starts =>
    let endRange := min numNodes (start + gap)
    match deltaWindow g.length (List.range' start (endRange - start)) (g, inps, false) with
    | none => .error "convert_node_to_placeholder raised"
    | some (g', inps', isRem) =>
      if isRem then
        let g'' := consolidate_placeholders g'
        match graph_fails module_fails g'' inps' with
        | .error e => .error e
        | .ok r =>
          if r then .ok (some ⟨g'', inps'⟩)
          else deltaStarts module_fails g inps numNodes gap starts
      else deltaStarts module_fails g inps numNodes gap starts

/-- The `while gap >= 1` loop of delta_debugging, halving the window size
each round; `fuel` makes the recursion structural, with `gap + 1` rounds
always sufficient. -/
def deltaGaps (module_fails : Graph → List Value → Bool) (g : Graph) (inps : List Value)
    (numNodes : Nat) : Nat → Nat → Except String (Option ReproState)
  | 0, _ => .error "delta_debugging ran out of fuel"
  | _ + 1, 0 => .ok none
  | fuel + 1, gap + 1 =>
    match deltaStarts module_fails g inps numNodes (gap + 1)
        ((List.range ((numNodes + gap) / (gap + 1))).map (fun k => k * (gap + 1))) with
    | .error e => .error e
    | .ok (some s) => .ok (some s)
    | .ok none => deltaGaps module_fails g inps numNodes fuel ((gap + 1) / 2)

/-- Mirrors the `delta_debugging` strategy body: the window size starts at
`2 ** floor(log2(num_nodes))` and halves each round. -/
def delta_debugging (module_fails : Graph → List Value → Bool) (g : Graph)
    (inps : List Value) : Except String (Option ReproState) :=
  let numNodes := g.length
  let gap0 := 2 ^ floorLog2 numNodes
  deltaGaps module_fails g inps numNodes (gap0 + 1) gap0

/-- Mirrors `copy.deepcopy(old_state.graph)`: a node-by-node, field-by-field
rebuild of the graph handed to a strategy. -/
def deepcopyGraph (g : Graph) : Graph :=
  g.map (fun n => { id := n.id, op := n.op, target := n.target, args := n.args, meta := n.meta })

/-- Mirrors `list(old_state.inps)`: a fresh list holding the same values. -/
def copyInps (inps : List Value) : List Value :=
  inps.foldr (fun v acc => v :: acc) []

/-- The acceptance condition of `_register_strategy`: strictly fewer nodes,
or the same node count with strictly more inputs. -/
def strictProgress (newState old : ReproState) : Prop :=
  newState.graph.length < old.graph.length ∨
    (newState.graph.length = old.graph.length ∧ old.inps.length < newState.inps.length)

instance (newState old : ReproState) : Decidable (strictProgress newState old) := by
  unfold strictProgress; infer_instance

/-- Mirrors the `new_func` wrapper produced by `_register_strategy`: run the
strategy on a deep copy of the accepted graph and a fresh copy of the input
list; on a claimed success, raise unless strict progress was made, then
re-verify the candidate with the oracle, silently dropping it (returning
no-progress) when the re-verification does not reproduce the failure. -/
def register_strategy (module_fails : Graph → List Value → Bool)
    (strategy : Graph → List Value → Except String (Option ReproState))
    (old : ReproState) : Except String (Option ReproState) :=
  match strategy (deepcopyGraph old.graph) (copyInps old.inps) with
  | .error e => .error e
  | .ok none => .ok none
  | .ok (some newState) =>
    if strictProgress newState old then
      match graph_fails module_fails newState.graph newState.inps with
      | .error e => .error e
      | .ok r => if r then .ok (some newState) else .ok none
    else .error "Success raised but no progress made?"

/-- The fixed strategy list of the driver loop, in source order. -/
def strategiesList (module_fails : Graph → List Value → Bool) :
    List (ReproState → Except String (Option ReproState)) :=
  [register_strategy module_fails (remove_suffix module_fails),
   register_strategy module_fails (eliminate_dead_code module_fails),
   register_strategy module_fails (remove_unused_inputs module_fails),
   register_strategy module_fails (delta_debugging module_fails),
   register_strategy module_fails (eliminate_dead_code module_fails),
   register_strategy module_fails (remove_unused_inputs module_fails)]

/-- One `for strategy in strategies` step: on progress replace the held
state and set the flag, otherwise keep both. -/
def passStep (strat : ReproState → Except String (Option ReproState))
    (acc : ReproState × Bool) : Except String (ReproState × Bool) :=
  match strat acc.1 with
  | .error e => .error e
  | .ok (some ns) => .ok (ns, true)
  | .ok none => .ok acc

/-- Folding `passStep` over a strategy list. -/
def runStrategies : List (ReproState → Except String (Option ReproState)) →
    ReproState × Bool → Except String (ReproState × Bool)
  | [], acc => .ok acc
  | strat :: rest, acc =>
    match passStep strat acc with
    | .error e => .error e
    | .ok acc' => runStrategies rest acc'

/-- One full pass of the driver loop over the fixed strategy list. -/
def runPass (module_fails : Graph → List Value → Bool) (s : ReproState) :
    Except String (ReproState × Bool) :=
  runStrategies (strategiesList module_fails) (s, false)

/-- The `while True` driver loop: repeat full passes until one makes no
progress, then return the last accepted state.  `fuel` makes the recursion
structural; the source loop terminates because every accepted replacement
strictly shrinks the node count or keeps it while growing the input list. -/
def minifierLoop (module_fails : Graph → List Value → Bool) :
    Nat → ReproState → Except String ReproState
  | 0, _ => .error "minifier ran out of fuel"
  | fuel + 1, s =>
    match runPass module_fails s with
    | .error e => .error e
    | .ok (s', progress) => if progress then minifierLoop module_fails fuel s' else .ok s'

/-- One environment lookup of the interpreter; `none` models the uncaught
KeyError of an operand that was never computed. -/
def envLookup (env : List (Nat × Value)) (a : Nat) : Option Value :=
  (env.find? (fun p => p.1 == a)).map (fun p => p.2)

/-- Looks up all operands of a node. -/
def envLookupAll (env : List (Nat × Value)) : List Nat → Option (List Value)
  | [] => some []
  | a :: as' =>
    match envLookup env a, envLookupAll env as' with
    | some v, some vs => some (v :: vs)
    | _, _ => none

/-- Mirrors `ConcreteProp(fail_f).propagate(*inps)`: run the graph once,
node by node in order — placeholders consume the inputs positionally, call
nodes ask the opaque executor `evalNode`, the output node returns its
operand values — and annotate each node whose result contains a tensor leaf
with `meta['concrete_value']`.  `.error` models the interpreter raising
(missing input, unresolved operand). -/
def propagateGo (evalNode : Node → List Value → Value) :
    Graph → List (Nat × Value) → List Value → Except String Graph
  | [], _, _ => .ok []
  | n :: rest, env, inps =>
    match n.op with
    | Op.placeholder =>
      match inps with
      | [] => .error "interpreter: missing positional input"
      | v :: inps' =>
        match propagateGo evalNode rest ((n.id, v) :: env) inps' with
        | .error e => .error e
        | .ok rest' =>
          .ok (({ n with meta := if containsTensor v then some v else n.meta }) :: rest')
    | Op.output =>
      match envLookupAll env n.args with
      | none => .error "interpreter: unresolved operand"
      | some vs =>
        let result := Value.tup vs
        match propagateGo evalNode rest env inps with
        | .error e => .error e
        | .ok rest' =>
          .ok (({ n with meta := if containsTensor result then some result else n.meta }) :: rest')
    | Op.call =>
      match envLookupAll env n.args with
      | none => .error "interpreter: unresolved operand"
      | some vs =>
        let result := evalNode n vs
        match propagateGo evalNode rest ((n.id, result) :: env) inps with
        | .error e => .error e
        | .ok rest' =>
          .ok (({ n with meta := if containsTensor result then some result else n.meta }) :: rest')

/-- Entry point of the value-propagation run. -/
def propagate (evalNode : Node → List Value → Value) (g : Graph) (inps : List Value) :
    Except String Graph :=
  propagateGo evalNode g [] inps

/-- Mirrors `minifier` up to the final accepted state: propagate concrete
values, fail fast if the original pair does not reproduce the failure, then
run the driver loop. -/
def minifierState (evalNode : Node → List Value → Value)
    (module_fails : Graph → List Value → Bool) (fuel : Nat) (g : Graph) (inps : List Value) :
    Except String ReproState :=
  match propagate evalNode g inps with
  | .error e => .error e
  | .ok g' =>
    match graph_fails module_fails g' inps with
    | .error e => .error e
    | .ok r =>
      if r then minifierLoop module_fails fuel ⟨g', inps⟩
      else .error "Input graph did not fail the tester"

/-- Mirrors `minifier`'s return value.  The source returns
`failing_fx, inps` — the module built from the final accepted graph paired
with the ORIGINAL input list, not `failing_state.inps`. -/
def minifier (evalNode : Node → List Value → Value)
    (module_fails : Graph → List Value → Bool) (fuel : Nat) (g : Graph) (inps : List Value) :
    Except String (Graph × List Value) :=
  match minifierState evalNode module_fails fuel g inps with
  | .error e => .error e
  | .ok s => .ok (s.graph, inps)

/-! Concrete fixtures used by the counterexamples and witnesses. -/

/-- A four-node failing graph: two placeholders (the second unused), one
call node and the output. -/
def exGraph : Graph :=
  [⟨0, Op.placeholder, 0, [], none⟩,
   ⟨1, Op.placeholder, 1, [], none⟩,
   ⟨2, Op.call, 7, [0], none⟩,
   ⟨3, Op.output, 0, [2], none⟩]

/-- The concrete inputs of `exGraph`, one tensor per placeholder. -/
def exInps : List Value := [Value.tensor 10, Value.tensor 20]

/-- A concrete opaque executor: every call node evaluates to a tensor
derived from its identity. -/
def exEval : Node → List Value → Value := fun n _ => Value.tensor (n.id + 30)

/-- A concrete failure predicate: the pair fails when the input list
matches the placeholder count and some call node is present. -/
def exFails : Graph → List Value → Bool := fun g inps =>
  (phCount g == inps.length) && g.any (fun n => n.op == Op.call)

/-- `exGraph` after the value-propagation run. -/
def exGraphProp : Graph :=
  [⟨0, Op.placeholder, 0, [], some (Value.tensor 10)⟩,
   ⟨1, Op.placeholder, 1, [], some (Value.tensor 20)⟩,
   ⟨2, Op.call, 7, [0], some (Value.tensor 32)⟩,
   ⟨3, Op.output, 0, [2], some (Value.tup [Value.tensor 32])⟩]

/-- The minimized graph the driver ends with on
`(exGraph, exInps, exFails)`: the unused placeholder is gone. -/
def exGraphMin : Graph :=
  [⟨0, Op.placeholder, 0, [], some (Value.tensor 10)⟩,
   ⟨2, Op.call, 7, [0], some (Value.tensor 32)⟩,
   ⟨3, Op.output, 0, [2], some (Value.tup [Value.tensor 32])⟩]

/-- The minimized input list the driver ends with. -/
def exInpsMin : List Value := [Value.tensor 10]

/-- An always-false failure predicate. -/
def exNeverFails : Graph → List Value → Bool := fun _ _ => false

/-- A two-node state for exercising the `_register_strategy` wrapper. -/
def exOldState : ReproState :=
  ⟨[⟨0, Op.call, 0, [], none⟩, ⟨1, Op.output, 0, [0], none⟩], []⟩

/-- A strictly smaller candidate for the wrapper that does NOT reproduce
the failure under `exFailsTwo`. -/
def exCandState : ReproState := ⟨[⟨1, Op.output, 0, [], none⟩], []⟩

/-- A failure predicate satisfied by `exOldState` but not by
`exCandState`. -/
def exFailsTwo : Graph → List Value → Bool := fun g _ => g.length == 2

/-- C1.  code_bug: `minifier` returns `failing_fx, inps` (line 233), the
ORIGINAL input list, although the minimized state's inputs are
`failing_state.inps` (line 232 passes those to generate_repro).  On the
concrete failing run below, the returned (graph, inputs) pair does NOT
satisfy the failure predicate — the minimized graph has one placeholder
while the original two inputs are returned — even though the final
accepted state does satisfy it, lints, and never grew in node count.  The
claim's parts (a) and (c) hold of the returned graph; part (b) fails on
exactly the returned pair. -/
theorem minifier_returns_original_inputs_bug :
    minifier exEval exFails 10 exGraph exInps = .ok (exGraphMin, exInps) ∧
    minifierState exEval exFails 10 exGraph exInps = .ok ⟨exGraphMin, exInpsMin⟩ ∧
    exFails exGraphMin exInpsMin = true ∧
    lint exGraphMin = true ∧
    exGraphMin.length ≤ exGraph.length ∧
    exFails exGraphMin exInps = false :=
  ⟨rfl, rfl, rfl, rfl, by decide, rfl⟩

/-- C2 counterexample.  When a strategy claims the strictly smaller
candidate `exCandState` and the oracle re-verification rejects it, the
wrapper returns `.ok none` — ordinary no-progress — instead of aborting
with a fatal error. -/
theorem reverify_failure_not_fatal_cex :
    register_strategy exFailsTwo (fun _ _ => .ok (some exCandState)) exOldState = .ok none :=
  rfl

/-- C2, amended.  Whenever a strategy returns a candidate that makes strict
progress but the oracle re-verification shows it does not reproduce the
failure, the wrapper prints a warning, discards the candidate and returns
no-progress (`None`); the fatal RuntimeError is reserved for a claimed
success that makes no progress, and a lint failure inside `graph_fails`
also aborts. -/
theorem reverify_failure_returns_no_progress
    (module_fails : Graph → List Value → Bool)
    (strat : Graph → List Value → Except String (Option ReproState))
    (old ns : ReproState)
    (hs : strat (deepcopyGraph old.graph) (copyInps old.inps) = .ok (some ns))
    (hp : strictProgress ns old)
    (hv : graph_fails module_fails ns.graph ns.inps = .ok false) :
    register_strategy module_fails strat old = .ok none := by
  unfold register_strategy
  rw [hs]
  simp [hp, hv]

/-- Witness for C2's amended theorem at the concrete wrapper run. -/
theorem reverify_failure_returns_no_progress_witness :
    register_strategy exFailsTwo (fun _ _ => .ok (some exCandState)) exOldState = .ok none :=
  reverify_failure_returns_no_progress exFailsTwo _ exOldState exCandState rfl
    (Or.inl (by decide)) rfl

/-- C3.  If the original (graph, inputs) pair does not satisfy the failure
predicate, `minifier` raises "Input graph did not fail the tester"
immediately — for every fuel bound, i.e. before the strategy loop ever
runs; only the value-propagation pass (not a reduction strategy) precedes
the check. -/
theorem initial_non_failing_raises
    (evalNode : Node → List Value → Value) (module_fails : Graph → List Value → Bool)
    (fuel : Nat) (g g' : Graph) (inps : List Value)
    (hp : propagate evalNode g inps = .ok g')
    (hl : lint g' = true)
    (hm : module_fails g' inps = false) :
    minifier evalNode module_fails fuel g inps = .error "Input graph did not fail the tester" := by
  unfold minifier minifierState graph_fails
  rw [hp]
  simp [hl, hm]

/-- Witness for C3 on the concrete graph with an always-false predicate. -/
theorem initial_non_failing_raises_witness :
    minifier exEval exNeverFails 5 exGraph exInps =
      .error "Input graph did not fail the tester" :=
  initial_non_failing_raises exEval exNeverFails 5 exGraph exGraphProp exInps rfl rfl rfl

/-- The lexicographic (node count, negated input count) order behind the
acceptance rule is transitive. -/
theorem strictProgress_trans {a b c : ReproState}
    (h1 : strictProgress b a) (h2 : strictProgress c b) : strictProgress c a := by
  unfold strictProgress at *
  omega

/-- A wrapper acceptance always satisfies the strict-progress condition:
candidates that satisfy neither branch never come back as `some`. -/
theorem register_strategy_some_progress
    (module_fails : Graph → List Value → Bool)
    (strat : Graph → List Value → Except String (Option ReproState))
    (old ns : ReproState)
    (h : register_strategy module_fails strat old = .ok (some ns)) :
    strictProgress ns old := by
  unfold register_strategy at h
  rcases hs : strat (deepcopyGraph old.graph) (copyInps old.inps) with e | r
  · rw [hs] at h; cases h
  · rw [hs] at h
    cases r with
    | none => cases h
    | some cand =>
      dsimp only at h
      by_cases hp : strictProgress cand old
      · rw [if_pos hp] at h
        rcases hv : graph_fails module_fails cand.graph cand.inps with e | b
        · rw [hv] at h; cases h
        · rw [hv] at h
          cases b with
          | false => simp at h
          | true => simp at h; exact h ▸ hp
      · rw [if_neg hp] at h; cases h

/-- Fold invariant of the pass over any strategy list whose members only
return candidates that strictly progress: the fold either keeps the
accumulator or ends at a state strictly below the starting one. -/
theorem runStrategies_progress_inv
    (L : List (ReproState → Except String (Option ReproState)))
    (hL : ∀ strat ∈ L, ∀ s ns, strat s = .ok (some ns) → strictProgress ns s) :
    ∀ acc res, runStrategies L acc = .ok res → res = acc ∨ strictProgress res.1 acc.1 := by
  induction L with
  | nil =>
    intro acc res h
    unfold runStrategies at h
    cases h
    exact Or.inl rfl
  | cons strat rest ih =>
    intro acc res h
    unfold runStrategies passStep at h
    rcases hstep : strat acc.1 with e | r
    · rw [hstep] at h; cases h
    · rw [hstep] at h
      cases r with
      | none =>
        simp only at h
        have := ih (fun s hs => hL s (List.mem_cons_of_mem _ hs)) acc res h
        exact this
      | some ns =>
        simp only at h
        have hprog : strictProgress ns acc.1 :=
          hL strat (List.mem_cons_self _ _) acc.1 ns hstep
        have := ih (fun s hs => hL s (List.mem_cons_of_mem _ hs)) (ns, true) res h
        rcases this with heq | hlt
        · exact Or.inr (heq ▸ hprog)
        · exact Or.inr (strictProgress_trans hprog hlt)

/-- C4.  Every accepted replacement strictly decreases the node count or
keeps it while strictly increasing the input count (first conjunct); a
claimed improvement satisfying neither branch makes the wrapper raise, so
it is never accepted (second conjunct); hence a pass that reports progress
ends strictly below its starting state in the (node count, -input count)
lexicographic order (third conjunct). -/
theorem accepted_replacement_strict_progress :
    (∀ (module_fails : Graph → List Value → Bool) strat (old ns : ReproState),
        register_strategy module_fails strat old = .ok (some ns) → strictProgress ns old) ∧
    (∀ (module_fails : Graph → List Value → Bool) strat (old cand : ReproState),
        strat (deepcopyGraph old.graph) (copyInps old.inps) = .ok (some cand) →
        ¬ strictProgress cand old →
        register_strategy module_fails strat old =
          .error "Success raised but no progress made?") ∧
    (∀ (module_fails : Graph → List Value → Bool) (s s' : ReproState),
        runPass module_fails s = .ok (s', true) → strictProgress s' s) := by
  refine ⟨register_strategy_some_progress, ?_, ?_⟩
  · intro module_fails strat old cand hs hp
    unfold register_strategy
    rw [hs]
    dsimp only
    rw [if_neg hp]
  · intro module_fails s s' h
    have hL : ∀ strat ∈ strategiesList module_fails,
        ∀ t nt, strat t = .ok (some nt) → strictProgress nt t := by
      intro strat hmem t nt ht
      simp only [strategiesList, List.mem_cons, List.not_mem_nil, or_false] at hmem
      rcases hmem with h1 | h1 | h1 | h1 | h1 | h1 <;>
        exact register_strategy_some_progress _ _ _ _ (h1 ▸ ht)
    have := runStrategies_progress_inv (strategiesList module_fails) hL (s, false) (s', true) h
    rcases this with heq | hlt
    · cases heq
    · exact hlt

/-- A wrapper run that accepts a concrete strictly smaller candidate. -/
def exShrinkFails : Graph → List Value → Bool := fun g _ => g.length == 1

/-- Witness for C4 at concrete instances: a concrete acceptance strictly
progresses, and a concrete no-progress claim raises. -/
theorem accepted_replacement_strict_progress_witness :
    strictProgress exCandState exOldState ∧
    register_strategy exFailsTwo (fun _ _ => .ok (some exOldState)) exOldState =
      .error "Success raised but no progress made?" := by
  constructor
  · exact accepted_replacement_strict_progress.1 exShrinkFails
      (fun _ _ => .ok (some exCandState)) exOldState exCandState rfl
  · exact accepted_replacement_strict_progress.2.1 exFailsTwo
      (fun _ _ => .ok (some exOldState)) exOldState exOldState rfl
      (by unfold strictProgress; omega)

/-- C5.  The driver applies the strategies in exactly the fixed source
order (first two conjuncts), exits returning the last accepted state as
soon as one full pass reports no progress (third conjunct), and otherwise
loops on the pass result (fourth conjunct). -/
theorem driver_fixed_order_and_exit :
    (∀ module_fails : Graph → List Value → Bool,
        strategiesList module_fails =
          [register_strategy module_fails (remove_suffix module_fails),
           register_strategy module_fails (eliminate_dead_code module_fails),
           register_strategy module_fails (remove_unused_inputs module_fails),
           register_strategy module_fails (delta_debugging module_fails),
           register_strategy module_fails (eliminate_dead_code module_fails),
           register_strategy module_fails (remove_unused_inputs module_fails)]) ∧
    (∀ (module_fails : Graph → List Value → Bool) (s : ReproState),
        runPass module_fails s = runStrategies (strategiesList module_fails) (s, false)) ∧
    (∀ (module_fails : Graph → List Value → Bool) (fuel : Nat) (s s' : ReproState),
        runPass module_fails s = .ok (s', false) →
        minifierLoop module_fails (fuel + 1) s = .ok s') ∧
    (∀ (module_fails : Graph → List Value → Bool) (fuel : Nat) (s s' : ReproState),
        runPass module_fails s = .ok (s', true) →
        minifierLoop module_fails (fuel + 1) s = minifierLoop module_fails fuel s') := by
  refine ⟨fun _ => rfl, fun _ _ => rfl, ?_, ?_⟩
  · intro module_fails fuel s s' h
    have hdef : minifierLoop module_fails (fuel + 1) s =
        match runPass module_fails s with
        | .error e => .error e
        | .ok (s', progress) =>
          if progress then minifierLoop module_fails fuel s' else .ok s' := rfl
    rw [hdef, h]
    rfl
  · intro module_fails fuel s s' h
    have hdef : minifierLoop module_fails (fuel + 1) s =
        match runPass module_fails s with
        | .error e => .error e
        | .ok (s', progress) =>
          if progress then minifierLoop module_fails fuel s' else .ok s' := rfl
    rw [hdef, h]
    rfl

/-- The already-minimal single-node state: every strategy reports
no-progress on it. -/
def exMinimalState : ReproState := ⟨[⟨0, Op.output, 0, [], none⟩], []⟩

/-- Witness for C5 at the already-minimal state: the first pass makes no
progress and the loop exits with the state unchanged. -/
theorem driver_fixed_order_and_exit_witness :
    minifierLoop exFails 4 exMinimalState = .ok exMinimalState :=
  driver_fixed_order_and_exit.2.2.1 exFails 3 exMinimalState exMinimalState rfl



/-- A linted graph with one placeholder, to be queried with three inputs. -/
def exMismatchGraph : Graph :=
  [⟨0, Op.placeholder, 0, [], none⟩, ⟨1, Op.output, 0, [0], none⟩]

/-- An input list longer than the placeholder count of `exMismatchGraph`. -/
def exMismatchInps : List Value := [Value.tensor 1, Value.tensor 2, Value.tensor 3]

/-- An always-true failure predicate. -/
def exAlwaysFails : Graph → List Value → Bool := fun _ _ => true

/-- C8 counterexample.  An oracle query goes through normally although the
queried pair violates the input-list invariant: the graph has one
placeholder, the input list has three entries, and `graph_fails` answers
`.ok true` without any check. -/
theorem oracle_query_without_input_check_cex :
    phCount exMismatchGraph = 1 ∧
    exMismatchInps.length = 3 ∧
    graph_fails exAlwaysFails exMismatchGraph exMismatchInps = .ok true :=
  ⟨rfl, rfl, rfl⟩

/-- C8, amended.  The input-list/placeholder-count invariant is asserted
only at the start of the remove-unused-inputs strategy; `graph_fails`
itself lints the graph and then answers the external predicate directly,
performing no input-count check, so oracle queries can be issued with a
mismatched input list. -/
theorem input_invariant_checked_only_at_remove_unused_inputs :
    (∀ (module_fails : Graph → List Value → Bool) (g : Graph) (inps : List Value),
        lint g = true → graph_fails module_fails g inps = .ok (module_fails g inps)) ∧
    (∀ (module_fails : Graph → List Value → Bool) (g : Graph) (inps : List Value),
        (get_placeholders g).length ≠ inps.length →
        remove_unused_inputs module_fails g inps =
          .error "assert failed: placeholder count") := by
  constructor
  · intro module_fails g inps hl
    unfold graph_fails
    rw [hl]
    rfl
  · intro module_fails g inps hne
    have hb : ((get_placeholders g).length != inps.length) = true := by
      simpa using hne
    unfold remove_unused_inputs
    dsimp only
    rw [hb]
    rfl

/-- Witness for C8's amended theorem: the unchecked query of the
counterexample, and the assert firing on the same mismatched pair. -/
theorem input_invariant_checked_only_at_remove_unused_inputs_witness :
    graph_fails exAlwaysFails exMismatchGraph exMismatchInps = .ok true ∧
    remove_unused_inputs exAlwaysFails exMismatchGraph exMismatchInps =
      .error "assert failed: placeholder count" :=
  ⟨input_invariant_checked_only_at_remove_unused_inputs.1 exAlwaysFails
      exMismatchGraph exMismatchInps rfl,
   input_invariant_checked_only_at_remove_unused_inputs.2 exAlwaysFails
      exMismatchGraph exMismatchInps (by decide)⟩

/-- Folding the pass over strategies that all answer no-progress keeps the
accumulator unchanged. -/
theorem runStrategies_none_fixed
    (L : List (ReproState → Except String (Option ReproState))) (s : ReproState)
    (h : ∀ strat ∈ L, strat s = .ok none) :
    runStrategies L (s, false) = .ok (s, false) := by
  induction L with
  | nil => rfl
  | cons strat rest ih =>
    unfold runStrategies passStep
    rw [h strat (List.mem_cons_self _ _)]
    exact ih (fun t ht => h t (List.mem_cons_of_mem _ ht))

/-- C9.  A strategy invocation that returns no progress leaves the driver's
accepted state untouched: the wrapper hands each strategy a deep copy of
the accepted graph and a fresh copy of the input list — both equal, as
values, to the originals (first two conjuncts) — a no-progress invocation
leaves the pass accumulator unchanged (third conjunct), and a pass in which
every strategy reports no progress returns the accepted state itself with
no progress flag (fourth conjunct). -/
theorem no_progress_leaves_state :
    (∀ g : Graph, deepcopyGraph g = g) ∧
    (∀ l : List Value, copyInps l = l) ∧
    (∀ (strat : ReproState → Except String (Option ReproState)) (acc : ReproState × Bool),
        strat acc.1 = .ok none → passStep strat acc = .ok acc) ∧
    (∀ (module_fails : Graph → List Value → Bool) (s : ReproState),
        (∀ strat ∈ strategiesList module_fails, strat s = .ok none) →
        runPass module_fails s = .ok (s, false)) := by
  refine ⟨?_, ?_, ?_, ?_⟩
  · intro g
    induction g with
    | nil => rfl
    | cons n rest ih => simp [deepcopyGraph] at ih ⊢
  · intro l
    induction l with
    | nil => rfl
    | cons v rest ih => simp [copyInps] at ih ⊢
  · intro strat acc h
    unfold passStep
    rw [h]
  · intro module_fails s h
    exact runStrategies_none_fixed _ s h

/-- Witness for C9 at the already-minimal single-node state, where every
strategy reports no progress. -/
theorem no_progress_leaves_state_witness :
    runPass exFails exMinimalState = .ok (exMinimalState, false) := by
  apply no_progress_leaves_state.2.2.2
  intro strat hmem
  simp only [strategiesList, List.mem_cons, List.not_mem_nil, or_false] at hmem
  rcases hmem with h | h | h | h | h | h <;> subst h <;> rfl


/-- Identities are untouched by the placeholder rewrite. -/
theorem setPh_ids (g : Graph) (nid : Nat) :
    (setPh g nid).map (fun n => n.id) = g.map (fun n => n.id) := by
  unfold setPh
  rw [List.map_map]
  apply List.map_congr_left
  intro m _
  by_cases h : m.id = nid <;> simp [h]

/-- A graph containing no node with identity `nid` is untouched by the
placeholder rewrite. -/
theorem setPh_eq_of_not_mem (g : Graph) (nid : Nat) (h : ∀ m ∈ g, m.id ≠ nid) :
    setPh g nid = g := by
  unfold setPh
  conv_rhs => rw [← List.map_id g]
  apply List.map_congr_left
  intro m hm
  simp [h m hm]

/-- The placeholder rewrite never un-converts: the placeholder count does
not drop. -/
theorem phCount_setPh_le (g : Graph) (nid : Nat) :
    phCount g ≤ phCount (setPh g nid) := by
  induction g with
  | nil => simp [phCount, get_placeholders, setPh]
  | cons n rest ih =>
    unfold phCount get_placeholders setPh at ih ⊢
    simp only [List.map_cons, List.filter_cons]
    by_cases h : n.id = nid
    · by_cases hop : n.op == Op.placeholder <;> simp [h, hop] <;> omega
    · by_cases hop : n.op == Op.placeholder <;> simp [h, hop] <;> omega

/-- With distinct identities the placeholder rewrite touches at most one
node, so the placeholder count grows by at most one. -/
theorem phCount_setPh_le_succ (g : Graph) (nid : Nat)
    (hd : distinctIds (g.map (fun n => n.id)) = true) :
    phCount (setPh g nid) ≤ phCount g + 1 := by
  induction g with
  | nil => simp [phCount, get_placeholders, setPh]
  | cons n rest ih =>
    simp only [List.map_cons, distinctIds, Bool.and_eq_true, Bool.not_eq_true'] at hd
    obtain ⟨hmem, hdrest⟩ := hd
    have ihr := ih hdrest
    have hmem' : ∀ m ∈ rest, m.id ≠ n.id := by simpa using hmem
    by_cases h : n.id = nid
    · have hnone : setPh rest nid = rest := by
        apply setPh_eq_of_not_mem
        intro m hm he
        exact hmem' m hm (he.trans h.symm)
      unfold phCount get_placeholders setPh at ihr ⊢
      unfold setPh at hnone
      simp only [List.map_cons]
      rw [if_pos h, hnone]
      by_cases hop : n.op == Op.placeholder <;> simp [hop, List.filter_cons]
    · unfold phCount get_placeholders setPh at ihr ⊢
      simp only [List.map_cons]
      rw [if_neg h]
      by_cases hop : n.op == Op.placeholder <;> simp [hop, List.filter_cons] <;> omega

/-- The combined bookkeeping a conversion call preserves: identities are
unchanged, the placeholder count never drops, the placeholder count grows
by at most the input-list growth, and the input list is only appended
to. -/
def ConvP (g : Graph) (inps : List Value) (g' : Graph) (inps' : List Value) : Prop :=
  g'.map (fun n => n.id) = g.map (fun n => n.id) ∧
    phCount g ≤ phCount g' ∧
    phCount g' + inps.length ≤ phCount g + inps'.length ∧
    ∃ rest, inps' = inps ++ rest

/-- ConvP holds reflexively. -/
theorem ConvP_rfl (g : Graph) (inps : List Value) : ConvP g inps g inps :=
  ⟨rfl, le_refl _, by omega, ⟨[], by simp⟩⟩

/-- ConvP composes. -/
theorem ConvP_trans {g g1 g' : Graph} {i i1 i' : List Value}
    (p : ConvP g i g1 i1) (q : ConvP g1 i1 g' i') : ConvP g i g' i' := by
  obtain ⟨e1, l1, b1, r1, hr1⟩ := p
  obtain ⟨e2, l2, b2, r2, hr2⟩ := q
  refine ⟨e2.trans e1, le_trans l1 l2, ?_, r1 ++ r2, ?_⟩
  · have := congrArg List.length hr1
    have := congrArg List.length hr2
    simp at *
    omega
  · rw [hr2, hr1, List.append_assoc]

/-- The consumer-loop fold preserves ConvP whenever each individual
conversion call does. -/
theorem convertFold_growth (fuel : Nat)
    (IH : ∀ g nid inps g' inps', distinctIds (g.map (fun n => n.id)) = true →
        convert_node_to_placeholder fuel g nid inps = some (g', inps') →
        ConvP g inps g' inps') :
    ∀ us (g : Graph) inps g' inps', distinctIds (g.map (fun n => n.id)) = true →
      convertFold (fun h u i => convert_node_to_placeholder fuel h u i) g us inps =
        some (g', inps') →
      ConvP g inps g' inps' := by
  intro us
  induction us with
  | nil =>
    intro g inps g' inps' _ h
    unfold convertFold at h
    cases h
    exact ConvP_rfl g inps
  | cons u us ih =>
    intro g inps g' inps' hd h
    unfold convertFold at h
    rcases hc : convert_node_to_placeholder fuel g u inps with _ | ⟨g1, i1⟩
    · rw [hc] at h; cases h
    · rw [hc] at h
      dsimp only at h
      have p1 := IH g u inps g1 i1 hd hc
      have hd1 : distinctIds (g1.map (fun n => n.id)) = true := by rw [p1.1]; exact hd
      exact ConvP_trans p1 (ih g1 i1 g' inps' hd1 h)

/-- Every successful conversion call on a graph with distinct identities
satisfies ConvP. -/
theorem convert_growth :
    ∀ fuel (g : Graph) nid inps g' inps', distinctIds (g.map (fun n => n.id)) = true →
      convert_node_to_placeholder fuel g nid inps = some (g', inps') →
      ConvP g inps g' inps' := by
  intro fuel
  induction fuel with
  | zero =>
    intro g nid inps g' inps' _ h
    cases h
  | succ fuel ih =>
    intro g nid inps g' inps' hd h
    unfold convert_node_to_placeholder at h
    rcases hf : g.find? (fun m => m.id == nid) with _ | node
    · rw [hf] at h; cases h
    · rw [hf] at h
      dsimp only at h
      by_cases hout : node.op = Op.output
      · rw [if_pos hout] at h
        cases h
        exact ConvP_rfl g inps
      · rw [if_neg hout] at h
        rcases hm : node.meta with _ | v
        · rw [hm] at h; cases h
        · rw [hm] at h
          dsimp only at h
          have pstep : ConvP g inps (setPh g nid) (inps ++ [zeroScalar]) := by
            refine ⟨setPh_ids g nid, phCount_setPh_le g nid, ?_, [zeroScalar], rfl⟩
            have := phCount_setPh_le_succ g nid hd
            simp
            omega
          cases ht : isTensor v with
          | true =>
            rw [ht] at h
            simp only [if_pos] at h
            cases h
            refine ⟨setPh_ids g nid, phCount_setPh_le g nid, ?_, [v], rfl⟩
            have := phCount_setPh_le_succ g nid hd
            simp
            omega
          | false =>
            rw [ht] at h
            simp only [Bool.false_eq_true, if_false] at h
            have hd' : distinctIds ((setPh g nid).map (fun n => n.id)) = true := by
              rw [setPh_ids]; exact hd
            exact ConvP_trans pstep (convertFold_growth fuel ih _ _ _ _ _ hd' h)

/-- Every node carrying identity `i` is an input or output node — the shape
in which "this consumer has been converted (or is the untouchable output)"
is tracked through the recursion. -/
def phOrOutAt (g : Graph) (i : Nat) : Prop :=
  ∀ n ∈ g, n.id = i → n.op = Op.placeholder ∨ n.op = Op.output

/-- The placeholder rewrite preserves phOrOutAt for every identity. -/
theorem phOrOutAt_setPh (g : Graph) (nid i : Nat) (h : phOrOutAt g i) :
    phOrOutAt (setPh g nid) i := by
  intro n hn he
  unfold setPh at hn
  rcases List.mem_map.1 hn with ⟨m, hm, hfm⟩
  by_cases hid : m.id = nid
  · rw [if_pos hid] at hfm
    rw [← hfm]
    exact Or.inl rfl
  · rw [if_neg hid] at hfm
    subst hfm
    exact h m hm he

/-- The placeholder rewrite establishes phOrOutAt at the rewritten
identity. -/
theorem phOrOutAt_setPh_self (g : Graph) (nid : Nat) : phOrOutAt (setPh g nid) nid := by
  intro n hn he
  unfold setPh at hn
  rcases List.mem_map.1 hn with ⟨m, hm, hfm⟩
  by_cases hid : m.id = nid
  · rw [if_pos hid] at hfm
    rw [← hfm]
    exact Or.inl rfl
  · rw [if_neg hid] at hfm
    exact absurd (hfm ▸ he) hid

/-- The consumer-loop fold preserves phOrOutAt whenever each individual
conversion call does. -/
theorem convertFold_phOrOutAt_mono (fuel : Nat)
    (IH : ∀ g nid inps g' inps' i, convert_node_to_placeholder fuel g nid inps =
        some (g', inps') → phOrOutAt g i → phOrOutAt g' i) :
    ∀ us (g : Graph) inps g' inps' i,
      convertFold (fun h u j => convert_node_to_placeholder fuel h u j) g us inps =
        some (g', inps') →
      phOrOutAt g i → phOrOutAt g' i := by
  intro us
  induction us with
  | nil =>
    intro g inps g' inps' i h hi
    unfold convertFold at h
    cases h
    exact hi
  | cons u us ih =>
    intro g inps g' inps' i h hi
    unfold convertFold at h
    rcases hc : convert_node_to_placeholder fuel g u inps with _ | ⟨g1, i1⟩
    · rw [hc] at h; cases h
    · rw [hc] at h
      dsimp only at h
      exact ih g1 i1 g' inps' i h (IH g u inps g1 i1 i hc hi)

/-- A successful conversion call never un-converts a placeholder: phOrOutAt
is preserved for every identity. -/
theorem convert_phOrOutAt_mono :
    ∀ fuel (g : Graph) nid inps g' inps' i,
      convert_node_to_placeholder fuel g nid inps = some (g', inps') →
      phOrOutAt g i → phOrOutAt g' i := by
  intro fuel
  induction fuel with
  | zero => intro g nid inps g' inps' i h _; cases h
  | succ fuel ih =>
    intro g nid inps g' inps' i h hi
    unfold convert_node_to_placeholder at h
    rcases hf : g.find? (fun m => m.id == nid) with _ | node
    · rw [hf] at h; cases h
    · rw [hf] at h
      dsimp only at h
      by_cases hout : node.op = Op.output
      · rw [if_pos hout] at h
        cases h
        exact hi
      · rw [if_neg hout] at h
        rcases hm : node.meta with _ | v
        · rw [hm] at h; cases h
        · rw [hm] at h
          dsimp only at h
          cases ht : isTensor v with
          | true =>
            rw [ht] at h
            simp only [if_pos] at h
            cases h
            exact phOrOutAt_setPh g nid i hi
          | false =>
            rw [ht] at h
            simp only [Bool.false_eq_true, if_false] at h
            exact convertFold_phOrOutAt_mono fuel ih _ _ _ _ _ i h
              (phOrOutAt_setPh g nid i hi)

/-- With distinct identities, the node `find?` answers is the only node
carrying its identity. -/
theorem find?_distinct_unique (g : Graph) (u : Nat) (node : Node)
    (hd : distinctIds (g.map (fun n => n.id)) = true)
    (hf : g.find? (fun m => m.id == u) = some node) :
    ∀ n ∈ g, n.id = u → n = node := by
  induction g with
  | nil => cases hf
  | cons m rest ih =>
    simp only [List.map_cons, distinctIds, Bool.and_eq_true, Bool.not_eq_true'] at hd
    obtain ⟨hmem, hdrest⟩ := hd
    have hmem' : ∀ x ∈ rest, x.id ≠ m.id := by simpa using hmem
    rw [List.find?_cons] at hf
    cases hpm : (m.id == u) with
    | true =>
      rw [hpm] at hf
      have hmu : m.id = u := by simpa using hpm
      cases hf
      intro n hn he
      rcases List.mem_cons.1 hn with he' | hn'
      · exact he'
      · exact absurd (he.trans hmu.symm) (hmem' n hn')
    | false =>
      rw [hpm] at hf
      intro n hn he
      rcases List.mem_cons.1 hn with he' | hn'
      · exfalso
        rw [he'] at he
        simp [he] at hpm
      · exact ih hdrest hf n hn' he

/-- A successful conversion call on a graph with distinct identities leaves
the converted identity an input node (or the untouched output). -/
theorem convert_establishes :
    ∀ fuel (g : Graph) u inps g1 i1, distinctIds (g.map (fun n => n.id)) = true →
      convert_node_to_placeholder fuel g u inps = some (g1, i1) →
      phOrOutAt g1 u := by
  intro fuel
  cases fuel with
  | zero => intro g u inps g1 i1 _ h; cases h
  | succ fuel =>
    intro g u inps g1 i1 hd h
    unfold convert_node_to_placeholder at h
    rcases hf : g.find? (fun m => m.id == u) with _ | node
    · rw [hf] at h; cases h
    · rw [hf] at h
      dsimp only at h
      by_cases hout : node.op = Op.output
      · rw [if_pos hout] at h
        cases h
        intro n hn he
        rw [find?_distinct_unique g u node hd hf n hn he]
        exact Or.inr hout
      · rw [if_neg hout] at h
        rcases hm : node.meta with _ | v
        · rw [hm] at h; cases h
        · rw [hm] at h
          dsimp only at h
          cases ht : isTensor v with
          | true =>
            rw [ht] at h
            simp only [if_pos] at h
            cases h
            exact phOrOutAt_setPh_self g u
          | false =>
            rw [ht] at h
            simp only [Bool.false_eq_true, if_false] at h
            exact convertFold_phOrOutAt_mono fuel
              (fun g' nid' inps' g'' inps'' i => convert_phOrOutAt_mono fuel g' nid' inps' g'' inps'' i)
              _ _ _ _ _ u h (phOrOutAt_setPh_self g u)

/-- Every consumer listed for the fold ends up converted (or is the
output) after a successful fold on a graph with distinct identities. -/
theorem convertFold_converts_all (fuel : Nat) :
    ∀ us (g : Graph) inps g' inps', distinctIds (g.map (fun n => n.id)) = true →
      convertFold (fun h u j => convert_node_to_placeholder fuel h u j) g us inps =
        some (g', inps') →
      ∀ u ∈ us, phOrOutAt g' u := by
  intro us
  induction us with
  | nil =>
    intro g inps g' inps' _ _ u hu
    cases hu
  | cons u0 us ih =>
    intro g inps g' inps' hd h u hu
    unfold convertFold at h
    rcases hc : convert_node_to_placeholder fuel g u0 inps with _ | ⟨g1, i1⟩
    · rw [hc] at h; cases h
    · rw [hc] at h
      dsimp only at h
      have hd1 : distinctIds (g1.map (fun n => n.id)) = true := by
        rw [(convert_growth fuel g u0 inps g1 i1 hd hc).1]; exact hd
      rcases List.mem_cons.1 hu with rfl | hu'
      · exact convertFold_phOrOutAt_mono fuel
          (fun g' nid' inps' g'' inps'' i => convert_phOrOutAt_mono fuel g' nid' inps' g'' inps'' i)
          _ _ _ _ _ u h (convert_establishes fuel g u inps g1 i1 hd hc)
      · exact ih g1 i1 g' inps' hd1 h u hu'

/-- A diamond of consumers: node 0 (non-tensor value) is consumed by node 1
(non-tensor value) and node 2 (tensor value), and node 2 also consumes
node 1, so converting node 0 reaches node 2 twice. -/
def exDiamond : Graph :=
  [⟨0, Op.call, 0, [], some (Value.tup [Value.tensor 1])⟩,
   ⟨1, Op.call, 0, [0], some (Value.tup [Value.tensor 2])⟩,
   ⟨2, Op.call, 0, [0, 1], some (Value.tensor 5)⟩,
   ⟨3, Op.output, 0, [2], none⟩]

/-- `exDiamond` after converting node 0: three new placeholders. -/
def exDiamondConverted : Graph :=
  [⟨0, Op.placeholder, 0, [], some (Value.tup [Value.tensor 1])⟩,
   ⟨1, Op.placeholder, 1, [], some (Value.tup [Value.tensor 2])⟩,
   ⟨2, Op.placeholder, 2, [], some (Value.tensor 5)⟩,
   ⟨3, Op.output, 0, [2], none⟩]

/-- The four appended inputs of the diamond conversion: node 2 contributes
twice. -/
def exDiamondInps : List Value :=
  [Value.tensor 0, Value.tensor 0, Value.tensor 5, Value.tensor 5]

/-- C10 counterexample.  Converting node 0 of the diamond creates three new
placeholder nodes but appends four entries to the input list — the shared
consumer node 2 is converted once through node 1 and once again directly —
so the placeholder count and the input-list length do NOT grow by the same
amount. -/
theorem convert_growth_mismatch_cex :
    convert_node_to_placeholder 10 exDiamond 0 [] =
      some (exDiamondConverted, exDiamondInps) ∧
    phCount exDiamond = 0 ∧
    phCount exDiamondConverted = 3 ∧
    exDiamondInps.length = 4 ∧
    phCount exDiamondConverted - phCount exDiamond ≠
      exDiamondInps.length - ([] : List Value).length :=
  ⟨rfl, rfl, rfl, rfl, by decide⟩

/-- C10, amended.  A call on an output node changes neither the graph nor
the input list (first conjunct); on a graph with distinct identities every
successful call keeps the placeholder count non-decreasing and grows it by
at most the growth of the input list — equality can fail when a consumer is
reachable along more than one conversion path (second conjunct); and a
successful call on a non-output node appends at least one entry, the
node's own, extending the input list (third conjunct). -/
theorem convert_growth_bounds :
    (∀ (fuel : Nat) (g : Graph) (nid : Nat) (inps : List Value) (node : Node),
        g.find? (fun m => m.id == nid) = some node → node.op = Op.output →
        convert_node_to_placeholder (fuel + 1) g nid inps = some (g, inps)) ∧
    (∀ (fuel : Nat) (g : Graph) (nid : Nat) (inps : List Value) g' inps',
        distinctIds (g.map (fun n => n.id)) = true →
        convert_node_to_placeholder fuel g nid inps = some (g', inps') →
        phCount g ≤ phCount g' ∧
          phCount g' + inps.length ≤ phCount g + inps'.length) ∧
    (∀ (fuel : Nat) (g : Graph) (nid : Nat) (inps : List Value) (node : Node) g' inps',
        distinctIds (g.map (fun n => n.id)) = true →
        g.find? (fun m => m.id == nid) = some node → node.op ≠ Op.output →
        convert_node_to_placeholder (fuel + 1) g nid inps = some (g', inps') →
        inps.length < inps'.length ∧ ∃ rest, inps' = inps ++ rest) := by
  refine ⟨?_, ?_, ?_⟩
  · intro fuel g nid inps node hf hout
    unfold convert_node_to_placeholder
    rw [hf]
    dsimp only
    rw [if_pos hout]
  · intro fuel g nid inps g' inps' hd h
    have p := convert_growth fuel g nid inps g' inps' hd h
    exact ⟨p.2.1, p.2.2.1⟩
  · intro fuel g nid inps node g' inps' hd hf hout h
    unfold convert_node_to_placeholder at h
    rw [hf] at h
    dsimp only at h
    rw [if_neg hout] at h
    rcases hm : node.meta with _ | v
    · rw [hm] at h; cases h
    · rw [hm] at h
      dsimp only at h
      cases ht : isTensor v with
      | true =>
        rw [ht] at h
        simp only [if_pos] at h
        cases h
        constructor
        · simp
        · exact ⟨[v], rfl⟩
      | false =>
        rw [ht] at h
        simp only [Bool.false_eq_true, if_false] at h
        have hd' : distinctIds ((setPh g nid).map (fun n => n.id)) = true := by
          rw [setPh_ids]; exact hd
        have p := convertFold_growth fuel
          (fun a b c d e hdx hx => convert_growth fuel a b c d e hdx hx)
          _ _ _ _ _ hd' h
        obtain ⟨_, _, _, rest, hrest⟩ := p
        constructor
        · have := congrArg List.length hrest
          simp at this
          omega
        · exact ⟨zeroScalar :: rest, by rw [hrest]; simp⟩

/-- Witness for C10's amended theorem on the diamond graph: the output node
is untouched, the bounds hold of the diamond conversion, and the
non-output call on node 0 extends the input list. -/
theorem convert_growth_bounds_witness :
    convert_node_to_placeholder 10 exDiamond 3 [] = some (exDiamond, []) ∧
    (phCount exDiamond ≤ phCount exDiamondConverted ∧
      phCount exDiamondConverted + ([] : List Value).length ≤
        phCount exDiamond + exDiamondInps.length) ∧
    (([] : List Value).length < exDiamondInps.length ∧
      ∃ rest, exDiamondInps = [] ++ rest) :=
  ⟨convert_growth_bounds.1 9 exDiamond 3 [] ⟨3, Op.output, 0, [2], none⟩ rfl rfl,
   convert_growth_bounds.2.1 10 exDiamond 0 [] exDiamondConverted exDiamondInps rfl rfl,
   convert_growth_bounds.2.2 9 exDiamond 0 []
     ⟨0, Op.call, 0, [], some (Value.tup [Value.tensor 1])⟩
     exDiamondConverted exDiamondInps rfl rfl (by decide) rfl⟩

/-- C7.  Output nodes are never converted and left untouched (first
conjunct); converting a non-output node whose recorded concrete value is a
tensor rewrites just that node to a placeholder and appends exactly that
value (second conjunct); converting a non-output node whose recorded value
is not tensor-like appends the zero-valued scalar for the node itself and
recursively applies the conversion so that, on success, every one of the
node's consumers has been converted to a placeholder (or is the untouchable
output node) (third conjunct). -/
theorem convert_node_characterization :
    (∀ (fuel : Nat) (g : Graph) (nid : Nat) (inps : List Value) (node : Node),
        g.find? (fun m => m.id == nid) = some node → node.op = Op.output →
        convert_node_to_placeholder (fuel + 1) g nid inps = some (g, inps)) ∧
    (∀ (fuel : Nat) (g : Graph) (nid : Nat) (inps : List Value) (node : Node) v,
        g.find? (fun m => m.id == nid) = some node → node.op ≠ Op.output →
        node.meta = some v → isTensor v = true →
        convert_node_to_placeholder (fuel + 1) g nid inps =
          some (setPh g nid, inps ++ [v])) ∧
    (∀ (fuel : Nat) (g : Graph) (nid : Nat) (inps : List Value) (node : Node) v g' inps',
        distinctIds (g.map (fun n => n.id)) = true →
        g.find? (fun m => m.id == nid) = some node → node.op ≠ Op.output →
        node.meta = some v → isTensor v = false →
        convert_node_to_placeholder (fuel + 1) g nid inps = some (g', inps') →
        (∃ rest, inps' = (inps ++ [zeroScalar]) ++ rest) ∧
          (∀ u ∈ userIds (setPh g nid) nid, phOrOutAt g' u)) := by
  refine ⟨?_, ?_, ?_⟩
  · intro fuel g nid inps node hf hout
    unfold convert_node_to_placeholder
    rw [hf]
    dsimp only
    rw [if_pos hout]
  · intro fuel g nid inps node v hf hout hm ht
    unfold convert_node_to_placeholder
    rw [hf]
    dsimp only
    rw [if_neg hout, hm]
    dsimp only
    rw [ht]
    rfl
  · intro fuel g nid inps node v g' inps' hd hf hout hm ht h
    unfold convert_node_to_placeholder at h
    rw [hf] at h
    dsimp only at h
    rw [if_neg hout, hm] at h
    dsimp only at h
    rw [ht] at h
    simp only [Bool.false_eq_true, if_false] at h
    have hd' : distinctIds ((setPh g nid).map (fun n => n.id)) = true := by
      rw [setPh_ids]; exact hd
    constructor
    · have p := convertFold_growth fuel
        (fun a b c d e hdx hx => convert_growth fuel a b c d e hdx hx)
        _ _ _ _ _ hd' h
      exact p.2.2.2
    · exact convertFold_converts_all fuel _ _ _ _ _ hd' h

/-- Witness for C7 on the diamond graph: converting the tensor-valued
node 2 appends exactly its value, and converting the non-tensor node 0
appends the zero scalar first and ends with consumer node 1 converted to a
placeholder. -/
theorem convert_node_characterization_witness :
    convert_node_to_placeholder 10 exDiamond 2 [] =
      some (setPh exDiamond 2, [Value.tensor 5]) ∧
    (∃ rest, exDiamondInps = ([] ++ [zeroScalar]) ++ rest) ∧
    ((⟨1, Op.placeholder, 1, [], some (Value.tup [Value.tensor 2])⟩ : Node).op =
        Op.placeholder ∨
      (⟨1, Op.placeholder, 1, [], some (Value.tup [Value.tensor 2])⟩ : Node).op =
        Op.output) := by
  refine ⟨?_, ?_, ?_⟩
  · exact convert_node_characterization.2.1 9 exDiamond 2 []
      ⟨2, Op.call, 0, [0, 1], some (Value.tensor 5)⟩ (Value.tensor 5) rfl (by decide) rfl rfl
  · exact (convert_node_characterization.2.2 9 exDiamond 0 []
      ⟨0, Op.call, 0, [], some (Value.tup [Value.tensor 1])⟩ (Value.tup [Value.tensor 1])
      exDiamondConverted exDiamondInps rfl rfl (by decide) rfl rfl rfl).1
  · exact (convert_node_characterization.2.2 9 exDiamond 0 []
      ⟨0, Op.call, 0, [], some (Value.tup [Value.tensor 1])⟩ (Value.tup [Value.tensor 1])
      exDiamondConverted exDiamondInps rfl rfl (by decide) rfl rfl rfl).2 1
      (by decide) ⟨1, Op.placeholder, 1, [], some (Value.tup [Value.tensor 2])⟩
      (List.mem_cons_of_mem _ (List.mem_cons_self _ _)) rfl

/-- Acceptance condition of a cut point: the truncated candidate still
fails the oracle and is strictly smaller. -/
def suffixGood (mf : Graph → List Value → Bool) (g : Graph) (inps : List Value)
    (idx : Nat) : Prop :=
  graph_fails mf (truncCandAt g idx) inps = .ok true ∧
    (truncCandAt g idx).length < g.length

/-- Soundness of the scan: an accepted state is the truncation at some
non-placeholder, non-output cut point whose candidate still fails and is
strictly smaller. -/
theorem removeSuffixScan_inl (mf : Graph → List Value → Bool) (g : Graph)
    (inps : List Value) (gap : Nat) :
    ∀ rest idx tested s, rest = g.drop idx →
      removeSuffixScan mf g inps gap rest idx tested = .ok (.inl s) →
      ∃ idx' node, g[idx']? = some node ∧ node.op ≠ Op.placeholder ∧
        node.op ≠ Op.output ∧ s = ⟨truncCandAt g idx', inps⟩ ∧
        suffixGood mf g inps idx' := by
  intro rest
  induction rest with
  | nil =>
    intro idx tested s _ h
    cases h
  | cons node rest2 ih =>
    intro idx tested s hdrop h
    have hget : g[idx]? = some node := by
      rw [← List.head?_drop, ← hdrop]
      rfl
    have hdrop2 : rest2 = g.drop (idx + 1) := by
      rw [← List.drop_drop, ← hdrop]
      rfl
    unfold removeSuffixScan at h
    cases heli : (node.op != Op.placeholder && node.op != Op.output &&
        idx % gap == 0 && !tested.contains idx) with
    | false =>
      rw [heli] at h
      simp only [Bool.false_eq_true, if_false] at h
      exact ih (idx + 1) tested s hdrop2 h
    | true =>
      rw [heli] at h
      simp only [if_pos] at h
      rcases hr : graph_fails mf (truncCandAt g idx) inps with e | r
      · rw [hr] at h; cases h
      · rw [hr] at h
        dsimp only at h
        cases hcond : (r && decide ((truncCandAt g idx).length < g.length)) with
        | true =>
          rw [hcond] at h
          simp only [if_pos] at h
          cases h
          simp only [Bool.and_eq_true, bne_iff_ne, ne_eq, beq_iff_eq,
            Bool.not_eq_eq_eq_not, Bool.not_true, decide_eq_true_eq] at heli hcond
          obtain ⟨⟨⟨hph, hout⟩, _⟩, _⟩ := heli
          obtain ⟨hrt, hlt⟩ := hcond
          exact ⟨idx, node, hget, hph, hout, rfl, by rw [hr, hrt], hlt⟩
        | false =>
          rw [hcond] at h
          simp only [Bool.false_eq_true, if_false] at h
          exact ih (idx + 1) (idx :: tested) s hdrop2 h

/-- Completeness of the scan: when the walk finishes a round, the returned
tried-set only contains not-good points, and every cut point the walk owed
a visit at this stride is not good. -/
theorem removeSuffixScan_inr (mf : Graph → List Value → Bool) (g : Graph)
    (inps : List Value) (gap : Nat) :
    ∀ rest idx tested tested', rest = g.drop idx →
      (∀ j ∈ tested, ¬ suffixGood mf g inps j) →
      removeSuffixScan mf g inps gap rest idx tested = .ok (.inr tested') →
      (∀ j ∈ tested', ¬ suffixGood mf g inps j) ∧
      (∀ j node, idx ≤ j → g[j]? = some node → node.op ≠ Op.placeholder →
        node.op ≠ Op.output → j % gap = 0 → ¬ suffixGood mf g inps j) := by
  intro rest
  induction rest with
  | nil =>
    intro idx tested tested' hdrop hinv h
    cases h
    refine ⟨hinv, ?_⟩
    intro j node hij hget _ _ _
    have hlen : g.length ≤ idx := List.drop_eq_nil_iff.1 hdrop.symm
    rw [List.getElem?_eq_none (le_trans hlen hij)] at hget
    cases hget
  | cons node rest2 ih =>
    intro idx tested tested' hdrop hinv h
    have hget : g[idx]? = some node := by
      rw [← List.head?_drop, ← hdrop]
      rfl
    have hdrop2 : rest2 = g.drop (idx + 1) := by
      rw [← List.drop_drop, ← hdrop]
      rfl
    unfold removeSuffixScan at h
    cases heli : (node.op != Op.placeholder && node.op != Op.output &&
        idx % gap == 0 && !tested.contains idx) with
    | false =>
      rw [heli] at h
      simp only [Bool.false_eq_true, if_false] at h
      obtain ⟨hinv', hcov⟩ := ih (idx + 1) tested tested' hdrop2 hinv h
      refine ⟨hinv', ?_⟩
      intro j jnode hij hgetj hph hout hmod
      rcases Nat.lt_or_ge idx j with hlt | hge
      · exact hcov j jnode hlt hgetj hph hout hmod
      · have hje : idx = j := le_antisymm hij hge
        subst hje
        have hnd : jnode = node := by
          rw [hget] at hgetj
          exact (Option.some.inj hgetj).symm
        subst hnd
        have ha : (jnode.op != Op.placeholder) = true := by simp [hph]
        have hb : (jnode.op != Op.output) = true := by simp [hout]
        have hc : (idx % gap == 0) = true := by simp [hmod]
        rw [ha, hb, hc] at heli
        simp only [Bool.true_and, Bool.not_eq_false'] at heli
        have hmem : idx ∈ tested := by
          simpa using heli
        exact hinv idx hmem
    | true =>
      rw [heli] at h
      simp only [if_pos] at h
      rcases hr : graph_fails mf (truncCandAt g idx) inps with e | r
      · rw [hr] at h; cases h
      · rw [hr] at h
        dsimp only at h
        cases hcond : (r && decide ((truncCandAt g idx).length < g.length)) with
        | true =>
          rw [hcond] at h
          simp only [if_pos] at h
          cases h
        | false =>
          rw [hcond] at h
          simp only [Bool.false_eq_true, if_false] at h
          have hbad : ¬ suffixGood mf g inps idx := by
            rintro ⟨hgf, hlt⟩
            have hrt : r = true := by
              rw [hgf] at hr
              exact (Except.ok.inj hr).symm
            rw [hrt] at hcond
            simp [hlt] at hcond
          have hinv' : ∀ j ∈ (idx :: tested), ¬ suffixGood mf g inps j := by
            intro j hj
            rcases List.mem_cons.1 hj with rfl | hj'
            · exact hbad
            · exact hinv j hj'
          obtain ⟨hinvr, hcov⟩ := ih (idx + 1) (idx :: tested) tested' hdrop2 hinv' h
          refine ⟨hinvr, ?_⟩
          intro j jnode hij hgetj hph hout hmod
          rcases Nat.lt_or_ge idx j with hlt2 | hge
          · exact hcov j jnode hlt2 hgetj hph hout hmod
          · have hje : idx = j := le_antisymm hij hge
            subst hje
            exact hbad

/-- Soundness of the whole gap loop: any accepted state comes from the
scan. -/
theorem removeSuffixGaps_some (mf : Graph → List Value → Bool) (g : Graph)
    (inps : List Value) :
    ∀ fuel gap tested s,
      removeSuffixGaps mf g inps fuel gap tested = .ok (some s) →
      ∃ idx node, g[idx]? = some node ∧ node.op ≠ Op.placeholder ∧
        node.op ≠ Op.output ∧ s = ⟨truncCandAt g idx, inps⟩ ∧
        suffixGood mf g inps idx := by
  intro fuel
  induction fuel with
  | zero =>
    intro gap tested s h
    cases h
  | succ fuel ih =>
    intro gap tested s h
    cases gap with
    | zero => cases h
    | succ gap =>
      unfold removeSuffixGaps at h
      rcases hscan : removeSuffixScan mf g inps (gap + 1) g 0 tested with e | r
      · rw [hscan] at h; cases h
      · rw [hscan] at h
        cases r with
        | inl s' =>
          dsimp only at h
          cases h
          exact removeSuffixScan_inl mf g inps (gap + 1) g 0 tested s
            (List.drop_zero g).symm hscan
        | inr tested2 =>
          dsimp only at h
          exact ih ((gap + 1) / 2) tested2 s h

/-- Completeness of the whole gap loop: a no-progress answer means no
eligible cut point anywhere is good, because the stride always reaches 1
and at stride 1 every cut point is visited or already recorded. -/
theorem removeSuffixGaps_none (mf : Graph → List Value → Bool) (g : Graph)
    (inps : List Value) :
    ∀ fuel gap tested, 1 ≤ gap →
      (∀ j ∈ tested, ¬ suffixGood mf g inps j) →
      removeSuffixGaps mf g inps fuel gap tested = .ok none →
      ∀ idx node, g[idx]? = some node → node.op ≠ Op.placeholder →
        node.op ≠ Op.output → ¬ suffixGood mf g inps idx := by
  intro fuel
  induction fuel with
  | zero =>
    intro gap tested _ _ h
    cases h
  | succ fuel ih =>
    intro gap tested hgap hinv h
    cases gap with
    | zero => omega
    | succ gap =>
      unfold removeSuffixGaps at h
      rcases hscan : removeSuffixScan mf g inps (gap + 1) g 0 tested with e | r
      · rw [hscan] at h; cases h
      · rw [hscan] at h
        cases r with
        | inl s' => dsimp only at h; cases h
        | inr tested2 =>
          dsimp only at h
          obtain ⟨hinv2, hcov⟩ := removeSuffixScan_inr mf g inps (gap + 1) g 0 tested
            tested2 (List.drop_zero g).symm hinv hscan
          cases gap with
          | zero =>
            intro idx node hget hph hout
            exact hcov idx node (Nat.zero_le idx) hget hph hout (Nat.mod_one idx)
          | succ gap2 =>
            have hgap2 : 1 ≤ (gap2 + 2) / 2 := by omega
            exact ih ((gap2 + 2) / 2) tested2 hgap2 hinv2 h

/-- Bounds characterizing the structural floor log2: with enough fuel it
names the exponent of the largest power of two not exceeding `n`. -/
theorem log2fuel_bounds :
    ∀ fuel n, 1 ≤ n → n ≤ fuel →
      2 ^ log2fuel fuel n ≤ n ∧ n < 2 ^ (log2fuel fuel n + 1) := by
  intro fuel
  induction fuel with
  | zero =>
    intro n h1 h2
    omega
  | succ fuel ih =>
    intro n h1 h2
    unfold log2fuel
    by_cases hlt : n < 2
    · rw [if_pos hlt]
      simp
      omega
    · rw [if_neg hlt]
      have h1' : 1 ≤ n / 2 := by omega
      have h2' : n / 2 ≤ fuel := by omega
      obtain ⟨ha, hb⟩ := ih (n / 2) h1' h2'
      rw [pow_succ, pow_succ]
      constructor
      · omega
      · rw [pow_succ] at hb
        omega

/-- The bounds transported to `floorLog2`. -/
theorem floorLog2_bounds (n : Nat) (h : 1 ≤ n) :
    2 ^ floorLog2 n ≤ n ∧ n < 2 ^ (floorLog2 n + 1) :=
  log2fuel_bounds n n h (le_refl n)

/-- A ten-node linear chain, exercising the stride formula at a node count
that is not a power of two. -/
def exTenGraph : Graph :=
  [⟨0, Op.placeholder, 0, [], none⟩,
   ⟨1, Op.call, 0, [0], none⟩,
   ⟨2, Op.call, 0, [1], none⟩,
   ⟨3, Op.call, 0, [2], none⟩,
   ⟨4, Op.call, 0, [3], none⟩,
   ⟨5, Op.call, 0, [4], none⟩,
   ⟨6, Op.call, 0, [5], none⟩,
   ⟨7, Op.call, 0, [6], none⟩,
   ⟨8, Op.call, 0, [7], none⟩,
   ⟨9, Op.output, 0, [8], none⟩]

/-- The claim's phrase "the largest power of two strictly below n", written
as its own definition for comparison against the code's stride. -/
def specLargestPow2StrictlyBelow (n : Nat) : Nat := 2 ^ floorLog2 (n - 1)

/-- C6 counterexample.  On a ten-node graph the largest power of two
strictly below the node count is 8, but the code's initial stride
`2 ** (floor(log2(10)) - 1)` is 4, so the claimed stride formula is wrong
for node counts that are not powers of two. -/
theorem remove_suffix_initial_gap_cex :
    exTenGraph.length = 10 ∧
    specLargestPow2StrictlyBelow exTenGraph.length = 8 ∧
    8 < exTenGraph.length ∧
    removeSuffixInitialGap exTenGraph.length = 4 ∧
    removeSuffixInitialGap exTenGraph.length ≠
      specLargestPow2StrictlyBelow exTenGraph.length :=
  ⟨rfl, rfl, by decide, rfl, by decide⟩

/-- A three-node truncation target accepted by remove_suffix under an
always-true oracle. -/
def exCutGraph : Graph :=
  [⟨0, Op.placeholder, 0, [], none⟩,
   ⟨1, Op.call, 5, [0], none⟩,
   ⟨2, Op.call, 6, [1], none⟩,
   ⟨3, Op.output, 0, [2], none⟩]

/-- C6, amended.  The initial stride is `2 ** (floor(log2 n) - 1)` clamped
to at least 1, i.e. half the largest power of two not exceeding the node
count (first conjunct, with the bounds naming that power); the stride
halves each round down to 1, the walk skips points already tried, and any
accepted result is the truncation at a non-placeholder, non-output cut
point whose candidate both still fails the oracle and is strictly smaller
(second conjunct); no-progress comes back only when no cut point at stride
1 — that is, no eligible cut point at all — is good (third conjunct). -/
theorem remove_suffix_amended :
    (∀ n, 1 ≤ n →
        removeSuffixInitialGap n = max (2 ^ floorLog2 n / 2) 1 ∧
        2 ^ floorLog2 n ≤ n ∧ n < 2 ^ (floorLog2 n + 1)) ∧
    (∀ (mf : Graph → List Value → Bool) (g : Graph) (inps : List Value) s,
        remove_suffix mf g inps = .ok (some s) →
        ∃ idx node, g[idx]? = some node ∧ node.op ≠ Op.placeholder ∧
          node.op ≠ Op.output ∧ s = ⟨truncCandAt g idx, inps⟩ ∧
          suffixGood mf g inps idx) ∧
    (∀ (mf : Graph → List Value → Bool) (g : Graph) (inps : List Value),
        remove_suffix mf g inps = .ok none →
        ∀ idx node, g[idx]? = some node → node.op ≠ Op.placeholder →
          node.op ≠ Op.output → ¬ suffixGood mf g inps idx) := by
  refine ⟨?_, ?_, ?_⟩
  · intro n h1
    refine ⟨?_, floorLog2_bounds n h1⟩
    unfold removeSuffixInitialGap
    cases hL : floorLog2 n with
    | zero => decide
    | succ k =>
      rw [Nat.add_sub_cancel, pow_succ, Nat.mul_div_cancel _ (by omega)]
  · intro mf g inps s h
    unfold remove_suffix at h
    exact removeSuffixGaps_some mf g inps _ _ _ s h
  · intro mf g inps h
    unfold remove_suffix at h
    exact removeSuffixGaps_none mf g inps _ _ [] (Nat.le_max_right _ 1)
      (by intro j hj; cases hj) h

/-- Witness for C6's amended theorem: the stride facts at n = 8, a concrete
accepted truncation on the chain under an always-true oracle, and a
concrete not-good cut point on the no-progress run. -/
theorem remove_suffix_amended_witness :
    (removeSuffixInitialGap 8 = max (2 ^ floorLog2 8 / 2) 1 ∧
      2 ^ floorLog2 8 ≤ 8 ∧ 8 < 2 ^ (floorLog2 8 + 1)) ∧
    (∃ idx node, exCutGraph[idx]? = some node ∧ node.op ≠ Op.placeholder ∧
      node.op ≠ Op.output ∧
      (⟨truncCandAt exCutGraph 1, [Value.tensor 1]⟩ : ReproState) =
        ⟨truncCandAt exCutGraph idx, [Value.tensor 1]⟩ ∧
      suffixGood exAlwaysFails exCutGraph [Value.tensor 1] idx) ∧
    ¬ suffixGood exFails exGraphProp exInps 2 :=
  ⟨remove_suffix_amended.1 8 (by decide),
   remove_suffix_amended.2.1 exAlwaysFails exCutGraph [Value.tensor 1]
     ⟨truncCandAt exCutGraph 1, [Value.tensor 1]⟩ rfl,
   remove_suffix_amended.2.2 exFails exGraphProp exInps rfl 2
     ⟨2, Op.call, 7, [0], some (Value.tensor 32)⟩ rfl (by decide) (by decide)⟩
